import Mathlib

/-!
Verification development for a small interpreter of a bracket-loop byte
language operating on a fixed 30000-cell tape of unsigned 8-bit cells.

The development shallowly embeds the two core components of the program:

* the preprocessor (C function prepare), which walks the source buffer
  once, records a 1-based line number for every byte, builds the jump
  table pairing every loop-open byte (value 91) with its loop-close byte
  (value 93) via an explicit stack, and collects unbalanced-bracket
  errors; and

* the execution engine (C function execute), a for-loop over a program
  counter dispatching on the byte at the counter, mutating a tape of
  byte cells, with the counter held as a 64-bit unsigned quantity, so
  counter arithmetic is performed modulo 2 to the 64.

Machine integers are modelled as Nat with explicit reductions modulo
256 (cells) and modulo 2 to the 64 (the program counter), exactly where
the C types uint8_t and size_t make overflow defined wraparound.
-/

namespace Bfi

/-- Number of tape cells, the C constant CELL_COUNT. -/
def CELL_COUNT : Nat := 30000

/-- Modulus of the C type size_t, two to the 64th power. -/
def U64 : Nat := 18446744073709551616

/-- One diagnostic line written by the preprocessor: an unbalanced
loop-close or unbalanced loop-open message carrying the cited
1-based source line number. -/
inductive PrepErr where
  | unbalancedClose (line : Nat)
  | unbalancedOpen (line : Nat)
deriving DecidableEq

/-- State of the preprocessor scan: the line-number map and jump table
being built (total functions out of byte offsets; positions never
written keep the junk value 0, mirroring the uninitialised C arrays),
the explicit stack of pending loop-open offsets (head is the top, the
most recently pushed offset), the running line counter, the diagnostics
emitted so far (in emission order), and the success flag. -/
structure Prep where
  lines : Nat → Nat
  jumps : Nat → Nat
  stack : List Nat
  line : Nat
  errors : List PrepErr
  success : Bool

/-- Initial preprocessor state: empty stack, line counter 1, no errors,
success true. -/
def prepInit : Prep :=
  { lines := fun _ => 0, jumps := fun _ => 0, stack := [], line := 1,
    errors := [], success := true }

/-- One iteration of the preprocessor loop at byte offset i: record the
current line for offset i, bump the line counter on a newline (byte 10),
push on a loop-open (byte 91); on a loop-close (byte 93) either report
an unbalanced close (empty stack; the scan continues) or pop the top
offset and record the mutual jump-table entries. All other bytes only
get their line recorded. -/
def prepStep (src : List Nat) (st : Prep) (i : Nat) : Prep :=
  let b := src.getD i 0
  let st1 : Prep :=
    { st with lines := Function.update st.lines i st.line,
              line := st.line + (if b = 10 then 1 else 0) }
  if b = 91 then
    { st1 with stack := i :: st1.stack }
  else if b = 93 then
    match st1.stack with
    | [] =>
        { st1 with errors := st1.errors ++ [PrepErr.unbalancedClose st1.line],
                   success := false }
    | p :: rest =>
        { st1 with stack := rest,
                   jumps := Function.update (Function.update st1.jumps p i) i p }
  else st1

/-- The preprocessor loop: run prepStep for c consecutive offsets
starting at offset i. -/
def scanFrom (src : List Nat) : Nat → Nat → Prep → Prep
  | 0, _, st => st
  | c + 1, i, st => scanFrom src c (i + 1) (prepStep src st i)

/-- After the scan, every offset left on the stack is an unbalanced
loop-open: report one error per remaining offset, in the order they
were pushed (bottom of the stack first), each citing the line number
recorded for that offset, and mark failure. -/
def finalizeOpens (st : Prep) : Prep :=
  st.stack.reverse.foldl
    (fun t p =>
      { t with errors := t.errors ++ [PrepErr.unbalancedOpen (t.lines p)],
               success := false })
    st

/-- The whole preprocessor (C function prepare): scan every byte of the
source, then report the unmatched loop-opens left on the stack. -/
def prepare (src : List Nat) : Prep :=
  finalizeOpens (scanFrom src src.length 0 prepInit)

/-- State of the execution engine: the source buffer and the two arrays
produced by the preprocessor (read-only data), the diagnostics flag, the
tape (a total function; the program only owns indices below CELL_COUNT),
the tape pointer, the program counter, the bytes not yet read from
standard input, the bytes written to standard output by the output
instruction, and the record of diagnostic dumps, each dump listing the
(index, value) pairs it read from the tape. -/
structure EState where
  source : List Nat
  lines : Nat → Nat
  jumps : Nat → Nat
  debug : Bool
  tape : Nat → Nat
  cellptr : Nat
  pc : Nat
  input : List Nat
  output : List Nat
  dumps : List (List (Nat × Nat))

/-- Result of one iteration of the engine loop: either the successor
state (with the program counter already advanced by the loop increment,
modulo 2 to the 64), or a fatal bounds error citing a line number. -/
inductive Step where
  | next (s : EState)
  | fatal (line : Nat)

/-- Result of running the engine: normal termination with the final
state, a fatal bounds error with the cited line and the state at the
violating instruction, or out of fuel. -/
inductive Res where
  | ok (s : EState)
  | fatal (line : Nat) (s : EState)
  | more

/-- First tape index shown by the diagnostic dump: two cells before the
tape pointer when available, else index 0. -/
def dumpBegin (cellptr : Nat) : Nat :=
  if cellptr < 2 then 0 else cellptr - 2

/-- The ten consecutive tape indices read by the diagnostic dump,
starting at dumpBegin. -/
def dumpIndices (cellptr : Nat) : List Nat :=
  List.range' (dumpBegin cellptr) 10

/-- One iteration of the engine loop (the body of the C for-loop plus
its increment): dispatch on the byte at the program counter. Byte 43 is
increment, 45 decrement (both modulo 256), 62 move-right, 60 move-left
(both checked against the tape bounds and fatal on violation, citing
the line of the byte), 91 loop-open (conditional jump to the matching
close), 93 loop-close (jump to one before the matching open, in size_t
arithmetic, so that the loop increment lands on the open), 46 output,
44 input (end of stream leaves the cell unchanged), 35 the diagnostic
dump when the flag is on; every other byte is inert. -/
def step (s : EState) : Step :=
  if s.source.getD s.pc 0 = 43 then
    Step.next { s with
      tape := Function.update s.tape s.cellptr ((s.tape s.cellptr + 1) % 256),
      pc := (s.pc + 1) % U64 }
  else if s.source.getD s.pc 0 = 45 then
    Step.next { s with
      tape := Function.update s.tape s.cellptr ((s.tape s.cellptr + 255) % 256),
      pc := (s.pc + 1) % U64 }
  else if s.source.getD s.pc 0 = 62 then
    if s.cellptr = CELL_COUNT - 1 then
      Step.fatal (s.lines s.pc)
    else
      Step.next { s with cellptr := s.cellptr + 1, pc := (s.pc + 1) % U64 }
  else if s.source.getD s.pc 0 = 60 then
    if s.cellptr = 0 then
      Step.fatal (s.lines s.pc)
    else
      Step.next { s with cellptr := s.cellptr - 1, pc := (s.pc + 1) % U64 }
  else if s.source.getD s.pc 0 = 91 then
    Step.next { s with
      pc := ((if s.tape s.cellptr = 0 then s.jumps s.pc else s.pc) + 1) % U64 }
  else if s.source.getD s.pc 0 = 93 then
    Step.next { s with pc := ((s.jumps s.pc + (U64 - 1)) % U64 + 1) % U64 }
  else if s.source.getD s.pc 0 = 46 then
    Step.next { s with output := s.output ++ [s.tape s.cellptr],
                       pc := (s.pc + 1) % U64 }
  else if s.source.getD s.pc 0 = 44 then
    match s.input with
    | [] => Step.next { s with pc := (s.pc + 1) % U64 }
    | c :: rest =>
        Step.next { s with
          tape := Function.update s.tape s.cellptr (c % 256),
          input := rest,
          pc := (s.pc + 1) % U64 }
  else if s.source.getD s.pc 0 = 35 then
    if s.debug then
      Step.next { s with
        dumps := s.dumps ++ [(dumpIndices s.cellptr).map (fun i => (i, s.tape i))],
        pc := (s.pc + 1) % U64 }
    else
      Step.next { s with pc := (s.pc + 1) % U64 }
  else
    Step.next { s with pc := (s.pc + 1) % U64 }

/-- The engine loop (C function execute), fuel-indexed: while the
program counter is below the source length, perform one iteration;
terminate normally when the counter leaves the source, or abort with
the fatal error of the violating iteration. -/
def execute : Nat → EState → Res
  | 0, _ => Res.more
  | fuel + 1, s =>
    if s.pc < s.source.length then
      match step s with
      | Step.next s' => execute fuel s'
      | Step.fatal line => Res.fatal line s
    else
      Res.ok s

/-- The engine's starting state for a run: all tape cells zero, tape
pointer 0, program counter 0, no output, no dumps. -/
def initState (source : List Nat) (lines jumps : Nat → Nat) (debug : Bool)
    (input : List Nat) : EState :=
  { source := source, lines := lines, jumps := jumps, debug := debug,
    tape := fun _ => 0, cellptr := 0, pc := 0, input := input,
    output := [], dumps := [] }

/-- The program counter of the state produced by one engine iteration,
or none if the iteration aborts. The counter of Step.next is the offset
of the next byte the loop would dispatch. -/
def stepNextPc (s : EState) : Option Nat :=
  match step s with
  | Step.next s' => some s'.pc
  | Step.fatal _ => none

/-! Specification-side definitions, written from the wording of the
design document, to be compared with the implementation above. -/

/-- The 1-based line number of byte offset p: one more than the number
of newline bytes strictly before p. -/
def lineAt (src : List Nat) (p : Nat) : Nat :=
  1 + (src.take p).count 10

/-- Bracket depth of the length-k prefix: loop-opens minus loop-closes
among the first k bytes, as an integer. -/
def dep (src : List Nat) (k : Nat) : Int :=
  ((src.take k).count 91 : Int) - ((src.take k).count 93 : Int)

/-- A source buffer is balanced when no prefix has more loop-closes
than loop-opens and the whole buffer has equally many of each. -/
def Balanced (src : List Nat) : Prop :=
  (∀ k, k ≤ src.length → 0 ≤ dep src k) ∧ dep src src.length = 0

instance decidableBalanced (src : List Nat) : Decidable (Balanced src) := by
  unfold Balanced
  infer_instance

/-- Offsets i and j are structural partners: i holds a loop-open,
j a later loop-close, the depth returns to its pre-i value exactly
after j, and stays strictly above it at every point in between. -/
def Partner (src : List Nat) (i j : Nat) : Prop :=
  i < j ∧ src.getD i 0 = 91 ∧ src.getD j 0 = 93 ∧
    dep src (j + 1) = dep src i ∧
    ∀ m, i < m → m ≤ j → dep src i < dep src m

/-- Clamped bracket depth of the length-k prefix: like dep, but a
loop-close at depth 0 leaves the depth at 0 (natural subtraction),
matching the stack height of a scan that skips unmatched closes. -/
def cdep (src : List Nat) : Nat → Nat
  | 0 => 0
  | k + 1 =>
    if src.getD k 0 = 91 then cdep src k + 1
    else if src.getD k 0 = 93 then cdep src k - 1
    else cdep src k

/-- Partner relation expressed with the clamped depth; on balanced
sources it agrees with Partner. -/
def PartnerC (src : List Nat) (i j : Nat) : Prop :=
  i < j ∧ src.getD i 0 = 91 ∧ src.getD j 0 = 93 ∧
    cdep src (j + 1) = cdep src i ∧
    ∀ m, i < m → m ≤ j → cdep src i < cdep src m

/-- Offsets, in scan order, of the loop-closes among the first k bytes
that are unmatched: those scanned while the clamped depth is 0. -/
def specClosesUpTo (src : List Nat) (k : Nat) : List Nat :=
  (List.range k).filter (fun c => decide (src.getD c 0 = 93 ∧ cdep src c = 0))

/-- Offsets, in scan order, of the unmatched loop-closes of the whole
buffer. -/
def specCloses (src : List Nat) : List Nat :=
  specClosesUpTo src src.length

/-- Offsets, in increasing (push) order, of the loop-opens of the whole
buffer that never find a partner: the clamped depth stays strictly
above its pre-open value ever after. -/
def specOpens (src : List Nat) : List Nat :=
  (List.range src.length).filter (fun p =>
    decide (src.getD p 0 = 91) &&
      (List.range (src.length + 1)).all
        (fun m => decide (p < m → cdep src p < cdep src m)))

/-- Invariant of the pending-opens stack after scanning k bytes: each
entry is an earlier loop-open, sitting at clamped depth equal to the
number of entries below it, and the clamped depth stays strictly above
that level from just after the entry through position k. -/
def StackC (src : List Nat) (k : Nat) : List Nat → Prop
  | [] => True
  | p :: rest =>
      p < k ∧ src.getD p 0 = 91 ∧ cdep src p = rest.length ∧
        (∀ m, p < m → m ≤ k → cdep src p < cdep src m) ∧ StackC src k rest

/-- Invariant of the jump table after scanning k bytes, witnessed by a
ghost list P of matched pairs: every pair is a PartnerC pair finished
before k whose two offsets index each other in the jump table and lie
off the stack, and every loop-open and every matched loop-close before
k is on the stack or in some pair. -/
def PairsOK (src : List Nat) (k : Nat) (jumps : Nat → Nat)
    (stack : List Nat) (P : List (Nat × Nat)) : Prop :=
  (∀ pq ∈ P, PartnerC src pq.1 pq.2 ∧ pq.2 < k ∧
      jumps pq.1 = pq.2 ∧ jumps pq.2 = pq.1 ∧
      pq.1 ∉ stack ∧ pq.2 ∉ stack) ∧
  (∀ i, i < k →
      (src.getD i 0 = 91 ∨ (src.getD i 0 = 93 ∧ cdep src i ≠ 0)) →
      i ∈ stack ∨ ∃ pq ∈ P, i = pq.1 ∨ i = pq.2)

/-- Full invariant of the preprocessor scan after k bytes. -/
structure ScanInv (src : List Nat) (k : Nat) (st : Prep) : Prop where
  line_eq : st.line = lineAt src k
  lines_eq : ∀ p, p < k → st.lines p = lineAt src p
  stack_len : st.stack.length = cdep src k
  stack_ok : StackC src k st.stack
  errors_eq : st.errors =
    (specClosesUpTo src k).map (fun c => PrepErr.unbalancedClose (lineAt src c))
  success_eq : st.success = decide (st.errors = [])
  pairs : ∃ P : List (Nat × Nat), PairsOK src k st.jumps st.stack P

/-! Concrete states used to instantiate the theorems below. -/

/-- Engine state at the start of running the source of two bytes
loop-open loop-close, with the jump table the preprocessor built for
it; the current cell is zero. -/
def cexOpenState : EState :=
  initState [91, 93] (prepare [91, 93]).lines (prepare [91, 93]).jumps false []

/-- Engine state whose current byte is a loop-close with matching open
at offset 0. -/
def wCloseState : EState := initState [93] (fun _ => 1) (fun _ => 0) false []

/-- Engine state whose current byte is the input instruction and whose
input stream is exhausted. -/
def wInputState : EState := initState [44] (fun _ => 1) (fun _ => 0) false []

/-- Engine state whose current byte is a move-right. -/
def wPtrState : EState := initState [62] (fun _ => 1) (fun _ => 0) false []

/-- The state after the move-right of wPtrState. -/
def wPtrNext : EState := { wPtrState with cellptr := 1, pc := 1 }

/-- Engine state whose current byte is an increment. -/
def wFrameState : EState := initState [43] (fun _ => 1) (fun _ => 0) false []

/-- The state after the increment of wFrameState. -/
def wFrameNext : EState :=
  { wFrameState with tape := Function.update wFrameState.tape 0 1, pc := 1 }

/-- Engine state whose current byte is a move-right and whose tape
pointer sits at the last valid index. -/
def wBoundsState : EState :=
  { initState [62] (fun _ => 7) (fun _ => 0) false [] with cellptr := CELL_COUNT - 1 }

/-- Engine state at the start of a source of 256 increment bytes. -/
def wPlusState : EState :=
  initState (List.replicate 256 43) (fun _ => 0) (fun _ => 0) false []

/-- Engine state at the start of a source holding one decrement byte. -/
def wMinusState : EState := initState [45] (fun _ => 0) (fun _ => 0) false []

/-- A source of n move-right bytes followed by the diagnostic dump
byte. -/
def rightSrc (n : Nat) : List Nat := List.replicate n 62 ++ [35]

/-- State reached after k move-rights of rightSrc n, diagnostics
enabled. -/
def rightState (n k : Nat) : EState :=
  { source := rightSrc n, lines := fun _ => 1, jumps := fun _ => 0,
    debug := true, tape := fun _ => 0, cellptr := k, pc := k,
    input := [], output := [], dumps := [] }

end Bfi

namespace Bfi

/-! Arithmetic helpers for the size_t program counter. -/

theorem u64_wrap (j : Nat) (hj : j < U64) :
    ((j + (U64 - 1)) % U64 + 1) % U64 = j := by
  unfold U64 at *
  omega

theorem mod_u64_small (n : Nat) (h : n < U64) : n % U64 = n := Nat.mod_eq_of_lt h

/-! Characterisation of one engine iteration, byte case by byte case. -/

theorem step_plus (s : EState) (h : s.source.getD s.pc 0 = 43) :
    step s = Step.next { s with
      tape := Function.update s.tape s.cellptr ((s.tape s.cellptr + 1) % 256),
      pc := (s.pc + 1) % U64 } := by
  simp only [step]
  rw [h]
  rfl

theorem step_minus (s : EState) (h : s.source.getD s.pc 0 = 45) :
    step s = Step.next { s with
      tape := Function.update s.tape s.cellptr ((s.tape s.cellptr + 255) % 256),
      pc := (s.pc + 1) % U64 } := by
  simp only [step]
  rw [h]
  rfl

theorem step_right_ok (s : EState) (h : s.source.getD s.pc 0 = 62)
    (hc : ¬ s.cellptr = CELL_COUNT - 1) :
    step s = Step.next { s with cellptr := s.cellptr + 1, pc := (s.pc + 1) % U64 } := by
  simp only [step]
  rw [h]
  simp only [if_neg hc]
  rfl

theorem step_left_ok (s : EState) (h : s.source.getD s.pc 0 = 60)
    (hc : ¬ s.cellptr = 0) :
    step s = Step.next { s with cellptr := s.cellptr - 1, pc := (s.pc + 1) % U64 } := by
  simp only [step]
  rw [h]
  simp only [if_neg hc]
  rfl

theorem step_right_fatal (s : EState) (h : s.source.getD s.pc 0 = 62)
    (hc : s.cellptr = CELL_COUNT - 1) : step s = Step.fatal (s.lines s.pc) := by
  simp only [step]
  rw [h]
  simp only [if_pos hc]
  rfl

theorem step_left_fatal (s : EState) (h : s.source.getD s.pc 0 = 60)
    (hc : s.cellptr = 0) : step s = Step.fatal (s.lines s.pc) := by
  simp only [step]
  rw [h]
  simp only [if_pos hc]
  rfl

theorem step_open (s : EState) (h : s.source.getD s.pc 0 = 91) :
    step s = Step.next { s with
      pc := ((if s.tape s.cellptr = 0 then s.jumps s.pc else s.pc) + 1) % U64 } := by
  simp only [step]
  rw [h]
  rfl

theorem step_close (s : EState) (h : s.source.getD s.pc 0 = 93) :
    step s = Step.next { s with
      pc := ((s.jumps s.pc + (U64 - 1)) % U64 + 1) % U64 } := by
  simp only [step]
  rw [h]
  rfl

theorem step_output (s : EState) (h : s.source.getD s.pc 0 = 46) :
    step s = Step.next { s with output := s.output ++ [s.tape s.cellptr],
                                pc := (s.pc + 1) % U64 } := by
  simp only [step]
  rw [h]
  rfl

theorem step_input_nil (s : EState) (h : s.source.getD s.pc 0 = 44)
    (hi : s.input = []) :
    step s = Step.next { s with pc := (s.pc + 1) % U64 } := by
  simp only [step]
  rw [h, hi]
  rfl

theorem step_input_cons (s : EState) (c : Nat) (rest : List Nat)
    (h : s.source.getD s.pc 0 = 44) (hi : s.input = c :: rest) :
    step s = Step.next { s with
      tape := Function.update s.tape s.cellptr (c % 256),
      input := rest, pc := (s.pc + 1) % U64 } := by
  simp only [step]
  rw [h, hi]
  rfl

theorem step_dump_on (s : EState) (h : s.source.getD s.pc 0 = 35)
    (hd : s.debug = true) :
    step s = Step.next { s with
      dumps := s.dumps ++ [(dumpIndices s.cellptr).map (fun i => (i, s.tape i))],
      pc := (s.pc + 1) % U64 } := by
  simp only [step]
  rw [h, hd]
  rfl

theorem step_dump_off (s : EState) (h : s.source.getD s.pc 0 = 35)
    (hd : s.debug = false) :
    step s = Step.next { s with pc := (s.pc + 1) % U64 } := by
  simp only [step]
  rw [h, hd]
  rfl

theorem step_inert (s : EState)
    (h43 : ¬ s.source.getD s.pc 0 = 43) (h45 : ¬ s.source.getD s.pc 0 = 45)
    (h62 : ¬ s.source.getD s.pc 0 = 62) (h60 : ¬ s.source.getD s.pc 0 = 60)
    (h91 : ¬ s.source.getD s.pc 0 = 91) (h93 : ¬ s.source.getD s.pc 0 = 93)
    (h46 : ¬ s.source.getD s.pc 0 = 46) (h44 : ¬ s.source.getD s.pc 0 = 44)
    (h35 : ¬ s.source.getD s.pc 0 = 35) :
    step s = Step.next { s with pc := (s.pc + 1) % U64 } := by
  simp only [step, if_neg h43, if_neg h45, if_neg h62, if_neg h60, if_neg h91,
    if_neg h93, if_neg h46, if_neg h44, if_neg h35]

/-! Unfolding lemmas for the engine loop. -/

theorem execute_enter (fuel : Nat) (s s' : EState) (hpc : s.pc < s.source.length)
    (h : step s = Step.next s') : execute (fuel + 1) s = execute fuel s' := by
  simp only [execute, if_pos hpc, h]

theorem execute_fatalstep (fuel : Nat) (s : EState) (l : Nat)
    (hpc : s.pc < s.source.length) (h : step s = Step.fatal l) :
    execute (fuel + 1) s = Res.fatal l s := by
  simp only [execute, if_pos hpc, h]

theorem execute_done (fuel : Nat) (s : EState) (hpc : ¬ s.pc < s.source.length) :
    execute (fuel + 1) s = Res.ok s := by
  simp only [execute, if_neg hpc]

/-- Any engine iteration that produces a successor state keeps the tape
pointer inside the tape. -/
theorem ptr_preserved (s s' : EState) (hlt : s.cellptr < CELL_COUNT)
    (h : step s = Step.next s') : s'.cellptr < CELL_COUNT := by
  by_cases h43 : s.source.getD s.pc 0 = 43
  · rw [step_plus s h43] at h
    cases h
    exact hlt
  by_cases h45 : s.source.getD s.pc 0 = 45
  · rw [step_minus s h45] at h
    cases h
    exact hlt
  by_cases h62 : s.source.getD s.pc 0 = 62
  · by_cases hc : s.cellptr = CELL_COUNT - 1
    · rw [step_right_fatal s h62 hc] at h
      simp at h
    · rw [step_right_ok s h62 hc] at h
      cases h
      show s.cellptr + 1 < CELL_COUNT
      unfold CELL_COUNT at *
      omega
  by_cases h60 : s.source.getD s.pc 0 = 60
  · by_cases hc : s.cellptr = 0
    · rw [step_left_fatal s h60 hc] at h
      simp at h
    · rw [step_left_ok s h60 hc] at h
      cases h
      show s.cellptr - 1 < CELL_COUNT
      omega
  by_cases h91 : s.source.getD s.pc 0 = 91
  · rw [step_open s h91] at h
    cases h
    exact hlt
  by_cases h93 : s.source.getD s.pc 0 = 93
  · rw [step_close s h93] at h
    cases h
    exact hlt
  by_cases h46 : s.source.getD s.pc 0 = 46
  · rw [step_output s h46] at h
    cases h
    exact hlt
  by_cases h44 : s.source.getD s.pc 0 = 44
  · cases hi : s.input with
    | nil =>
      rw [step_input_nil s h44 hi] at h
      cases h
      exact hlt
    | cons c rest =>
      rw [step_input_cons s c rest h44 hi] at h
      cases h
      exact hlt
  by_cases h35 : s.source.getD s.pc 0 = 35
  · cases hd : s.debug with
    | true =>
      rw [step_dump_on s h35 hd] at h
      cases h
      exact hlt
    | false =>
      rw [step_dump_off s h35 hd] at h
      cases h
      exact hlt
  · rw [step_inert s h43 h45 h62 h60 h91 h93 h46 h44 h35] at h
    cases h
    exact hlt

end Bfi
namespace Bfi

/-- C1 (amended): on a loop-open byte with the current cell zero, the
program counter is set to the matching loop-close offset and the loop
increment then advances past it, so the next byte dispatched is the one
immediately after the loop-close — the closing byte is not itself
processed — and the loop body is skipped; with the cell nonzero,
execution falls through to the next byte, into the loop body. -/
theorem loop_open_zero_skips_body (s : EState) (h : s.source.getD s.pc 0 = 91) :
    (s.tape s.cellptr = 0 →
      step s = Step.next { s with pc := (s.jumps s.pc + 1) % U64 }) ∧
    (s.tape s.cellptr ≠ 0 →
      step s = Step.next { s with pc := (s.pc + 1) % U64 }) := by
  constructor
  · intro hz
    rw [step_open s h, hz]
    simp
  · intro hz
    rw [step_open s h]
    simp only [if_neg hz]

/-- Counterexample to C1 as stated: in the two-byte source loop-open
loop-close with the current cell zero, the matching loop-close offset
is 1, but after the loop-open iteration the next dispatched offset is
2: execution does not resume at the closing byte and the closing byte
is not processed. -/
theorem loop_open_cex :
    (prepare [91, 93]).jumps 0 = 1 ∧
    stepNextPc cexOpenState = some 2 ∧
    ¬ stepNextPc cexOpenState = some ((prepare [91, 93]).jumps 0) := by
  decide

theorem loop_open_zero_skips_body_witness :
    step cexOpenState =
      Step.next { cexOpenState with pc := ((prepare [91, 93]).jumps 0 + 1) % U64 } :=
  (loop_open_zero_skips_body cexOpenState (by decide)).1 (by decide)

end Bfi
namespace Bfi

/-- C10: on a loop-close byte the program counter is set to one before
the matching loop-open offset in size_t arithmetic and then incremented
by the loop, landing exactly on the open; in particular when the
matching open sits at offset 0 the subtraction wraps around to the
largest size_t value and the increment brings the counter back to 0, so
execution resumes at offset 0 and re-evaluates the loop condition. -/
theorem loop_close_wraparound (s : EState) (h : s.source.getD s.pc 0 = 93) :
    step s = Step.next { s with pc := ((s.jumps s.pc + (U64 - 1)) % U64 + 1) % U64 } ∧
    (s.jumps s.pc < U64 → step s = Step.next { s with pc := s.jumps s.pc }) ∧
    (s.jumps s.pc = 0 → step s = Step.next { s with pc := 0 }) := by
  refine ⟨step_close s h, fun hj => ?_, fun hj => ?_⟩
  · rw [step_close s h, u64_wrap _ hj]
  · have e : ((s.jumps s.pc + (U64 - 1)) % U64 + 1) % U64 = 0 := by
      rw [hj]
      unfold U64
      omega
    rw [step_close s h, e]

theorem loop_close_wraparound_witness :
    step wCloseState = Step.next { wCloseState with pc := 0 } :=
  (loop_close_wraparound wCloseState (by decide)).2.2 (by decide)

/-- C7: on the input byte, a nonempty input stream moves its first byte
into the current cell and consumes it; an exhausted input stream leaves
the whole tape unchanged, raises no error, and execution continues at
the next byte. -/
theorem input_instruction_semantics (s : EState) (h : s.source.getD s.pc 0 = 44) :
    (s.input = [] → step s = Step.next { s with pc := (s.pc + 1) % U64 }) ∧
    (∀ c rest, s.input = c :: rest → c < 256 →
      step s = Step.next { s with
        tape := Function.update s.tape s.cellptr c,
        input := rest, pc := (s.pc + 1) % U64 }) := by
  refine ⟨fun hi => step_input_nil s h hi, fun c rest hi hc => ?_⟩
  rw [step_input_cons s c rest h hi, Nat.mod_eq_of_lt hc]

theorem input_instruction_semantics_witness :
    step wInputState = Step.next { wInputState with pc := 1 } :=
  (input_instruction_semantics wInputState (by decide)).1 rfl

/-- C9: one engine iteration never changes the source buffer, the line
map or the jump table, and changes at most the tape cell at the current
tape pointer: every other cell keeps its value. -/
theorem step_frame_effect (s s' : EState) (h : step s = Step.next s') :
    s'.source = s.source ∧ s'.lines = s.lines ∧ s'.jumps = s.jumps ∧
      ∀ j, j ≠ s.cellptr → s'.tape j = s.tape j := by
  by_cases h43 : s.source.getD s.pc 0 = 43
  · rw [step_plus s h43] at h
    cases h
    exact ⟨rfl, rfl, rfl, fun j hj => Function.update_noteq hj _ _⟩
  by_cases h45 : s.source.getD s.pc 0 = 45
  · rw [step_minus s h45] at h
    cases h
    exact ⟨rfl, rfl, rfl, fun j hj => Function.update_noteq hj _ _⟩
  by_cases h62 : s.source.getD s.pc 0 = 62
  · by_cases hc : s.cellptr = CELL_COUNT - 1
    · rw [step_right_fatal s h62 hc] at h
      simp at h
    · rw [step_right_ok s h62 hc] at h
      cases h
      exact ⟨rfl, rfl, rfl, fun j hj => rfl⟩
  by_cases h60 : s.source.getD s.pc 0 = 60
  · by_cases hc : s.cellptr = 0
    · rw [step_left_fatal s h60 hc] at h
      simp at h
    · rw [step_left_ok s h60 hc] at h
      cases h
      exact ⟨rfl, rfl, rfl, fun j hj => rfl⟩
  by_cases h91 : s.source.getD s.pc 0 = 91
  · rw [step_open s h91] at h
    cases h
    exact ⟨rfl, rfl, rfl, fun j hj => rfl⟩
  by_cases h93 : s.source.getD s.pc 0 = 93
  · rw [step_close s h93] at h
    cases h
    exact ⟨rfl, rfl, rfl, fun j hj => rfl⟩
  by_cases h46 : s.source.getD s.pc 0 = 46
  · rw [step_output s h46] at h
    cases h
    exact ⟨rfl, rfl, rfl, fun j hj => rfl⟩
  by_cases h44 : s.source.getD s.pc 0 = 44
  · cases hi : s.input with
    | nil =>
      rw [step_input_nil s h44 hi] at h
      cases h
      exact ⟨rfl, rfl, rfl, fun j hj => rfl⟩
    | cons c rest =>
      rw [step_input_cons s c rest h44 hi] at h
      cases h
      exact ⟨rfl, rfl, rfl, fun j hj => Function.update_noteq hj _ _⟩
  by_cases h35 : s.source.getD s.pc 0 = 35
  · cases hd : s.debug with
    | true =>
      rw [step_dump_on s h35 hd] at h
      cases h
      exact ⟨rfl, rfl, rfl, fun j hj => rfl⟩
    | false =>
      rw [step_dump_off s h35 hd] at h
      cases h
      exact ⟨rfl, rfl, rfl, fun j hj => rfl⟩
  · rw [step_inert s h43 h45 h62 h60 h91 h93 h46 h44 h35] at h
    cases h
    exact ⟨rfl, rfl, rfl, fun j hj => rfl⟩

theorem step_frame_effect_witness :
    wFrameNext.source = wFrameState.source ∧
    wFrameNext.lines = wFrameState.lines ∧
    wFrameNext.jumps = wFrameState.jumps ∧
    ∀ j, j ≠ wFrameState.cellptr → wFrameNext.tape j = wFrameState.tape j :=
  step_frame_effect wFrameState wFrameNext rfl

/-- C6: the tape pointer starts a run at 0; every engine iteration that
continues keeps it strictly below the tape length; a move-right at the
last index or a move-left at index 0 makes the iteration abort with a
fatal error instead of wrapping the pointer. -/
theorem tape_pointer_in_bounds :
    (∀ src l j d inp, (initState src l j d inp).cellptr = 0) ∧
    (∀ s s', s.cellptr < CELL_COUNT → step s = Step.next s' →
      s'.cellptr < CELL_COUNT) ∧
    (∀ s : EState, s.source.getD s.pc 0 = 62 → s.cellptr = CELL_COUNT - 1 →
      step s = Step.fatal (s.lines s.pc)) ∧
    (∀ s : EState, s.source.getD s.pc 0 = 60 → s.cellptr = 0 →
      step s = Step.fatal (s.lines s.pc)) :=
  ⟨fun _ _ _ _ _ => rfl, ptr_preserved,
    fun s h hc => step_right_fatal s h hc,
    fun s h hc => step_left_fatal s h hc⟩

theorem tape_pointer_in_bounds_witness :
    wPtrNext.cellptr < CELL_COUNT ∧ step wBoundsState = Step.fatal 7 :=
  ⟨tape_pointer_in_bounds.2.1 wPtrState wPtrNext (by decide) rfl,
    tape_pointer_in_bounds.2.2.1 wBoundsState (by decide) rfl⟩

end Bfi
namespace Bfi

theorem getD_replicate (n m a d : Nat) (h : m < n) :
    (List.replicate n a).getD m d = a := by
  induction n generalizing m with
  | zero => omega
  | succ n ih =>
    cases m with
    | zero => rfl
    | succ m =>
      simp only [List.replicate_succ, List.getD_cons_succ]
      exact ih m (by omega)

theorem execute_plus_run : ∀ (c : Nat) (s : EState),
    s.source.length < U64 → s.pc + c = s.source.length →
    (∀ m, m < s.source.length → s.source.getD m 0 = 43) →
    s.tape s.cellptr < 256 →
    execute (c + 1) s = Res.ok { s with
      tape := Function.update s.tape s.cellptr ((s.tape s.cellptr + c) % 256),
      pc := s.source.length } := by
  intro c
  induction c with
  | zero =>
    intro s hlen hpc hall hv
    have hpc0 : s.pc = s.source.length := by omega
    rw [execute_done 0 s (by omega)]
    rw [Nat.add_zero, Nat.mod_eq_of_lt hv, Function.update_eq_self, ← hpc0]
  | succ c ih =>
    intro s hlen hpc hall hv
    have hlt : s.pc < s.source.length := by omega
    have hstep := step_plus s (hall s.pc hlt)
    have hmod : (s.pc + 1) % U64 = s.pc + 1 := Nat.mod_eq_of_lt (by omega)
    rw [hmod] at hstep
    rw [execute_enter (c + 1) s _ hlt hstep]
    have h1 : ({ s with
        tape := Function.update s.tape s.cellptr ((s.tape s.cellptr + 1) % 256),
        pc := s.pc + 1 } : EState).source.length < U64 := hlen
    have h2 : ({ s with
        tape := Function.update s.tape s.cellptr ((s.tape s.cellptr + 1) % 256),
        pc := s.pc + 1 } : EState).pc + c = s.source.length := by
      show s.pc + 1 + c = s.source.length
      omega
    have h3 : ∀ m, m < s.source.length →
        ({ s with
          tape := Function.update s.tape s.cellptr ((s.tape s.cellptr + 1) % 256),
          pc := s.pc + 1 } : EState).source.getD m 0 = 43 := hall
    have h4 : ({ s with
        tape := Function.update s.tape s.cellptr ((s.tape s.cellptr + 1) % 256),
        pc := s.pc + 1 } : EState).tape s.cellptr < 256 := by
      show Function.update s.tape s.cellptr ((s.tape s.cellptr + 1) % 256) s.cellptr < 256
      rw [Function.update_same]
      exact Nat.mod_lt _ (by omega)
    rw [ih _ h1 h2 h3 h4]
    dsimp only
    rw [Function.update_same, Function.update_idem, Nat.mod_add_mod]
    have e : s.tape s.cellptr + 1 + c = s.tape s.cellptr + (c + 1) := by omega
    rw [e]

end Bfi
namespace Bfi

/-- C8: cell arithmetic wraps modulo 256. Running a source of 256
consecutive increment bytes returns the tape, in particular the current
cell, to exactly its original contents; a single decrement byte applied
to a cell holding 0 leaves it holding 255; and the increment and
decrement instructions never abort. -/
theorem cell_arithmetic_wraps :
    (∀ s : EState, s.source = List.replicate 256 43 → s.pc = 0 →
      s.tape s.cellptr < 256 →
      execute 257 s = Res.ok { s with pc := 256 }) ∧
    (∀ s : EState, s.source = [45] → s.pc = 0 → s.tape s.cellptr = 0 →
      execute 2 s = Res.ok { s with
        tape := Function.update s.tape s.cellptr 255, pc := 1 }) ∧
    (∀ s : EState, s.source.getD s.pc 0 = 43 ∨ s.source.getD s.pc 0 = 45 →
      ∃ s', step s = Step.next s') := by
  refine ⟨fun s hsrc hpc hv => ?_, fun s hsrc hpc hz => ?_, fun s hb => ?_⟩
  · have hlen : s.source.length = 256 := by rw [hsrc, List.length_replicate]
    have hall : ∀ m, m < s.source.length → s.source.getD m 0 = 43 := by
      intro m hm
      rw [hsrc]
      exact getD_replicate 256 m 43 0 (by omega)
    have := execute_plus_run 256 s (by rw [hlen]; unfold U64; omega)
      (by omega) hall hv
    rw [hlen] at this
    rw [this]
    have e : (s.tape s.cellptr + 256) % 256 = s.tape s.cellptr := by omega
    rw [e, Function.update_eq_self]
  · have hlen : s.source.length = 1 := by rw [hsrc]; rfl
    have hb : s.source.getD s.pc 0 = 45 := by rw [hsrc, hpc]; rfl
    have hstep := step_minus s hb
    rw [hz, hpc] at hstep
    have e1 : (0 + 255) % 256 = 255 := by norm_num
    have e2 : (0 + 1) % U64 = 1 := by unfold U64; norm_num
    rw [e1, e2] at hstep
    rw [execute_enter 1 s _ (by omega) hstep]
    rw [execute_done 0 _ (by show ¬ 1 < s.source.length; omega)]
  · rcases hb with hb | hb
    · exact ⟨_, step_plus s hb⟩
    · exact ⟨_, step_minus s hb⟩

theorem cell_arithmetic_wraps_witness :
    execute 257 wPlusState = Res.ok { wPlusState with pc := 256 } ∧
    execute 2 wMinusState = Res.ok { wMinusState with
      tape := Function.update wMinusState.tape 0 255, pc := 1 } :=
  ⟨cell_arithmetic_wraps.1 wPlusState rfl rfl (by decide),
    cell_arithmetic_wraps.2.1 wMinusState rfl rfl rfl⟩

end Bfi
namespace Bfi

theorem rightSrc_length (n : Nat) : (rightSrc n).length = n + 1 := by
  unfold rightSrc
  rw [List.length_append, List.length_replicate]
  rfl

theorem rightSrc_getD_lt (n k : Nat) (h : k < n) : (rightSrc n).getD k 0 = 62 := by
  unfold rightSrc
  rw [List.getD_eq_getElem?_getD, List.getElem?_append_left (by rw [List.length_replicate]; omega)]
  rw [← List.getD_eq_getElem?_getD]
  exact getD_replicate n k 62 0 h

theorem rightSrc_getD_last (n : Nat) : (rightSrc n).getD n 0 = 35 := by
  unfold rightSrc
  rw [List.getD_eq_getElem?_getD, List.getElem?_append_right (by rw [List.length_replicate])]
  rw [List.length_replicate, Nat.sub_self]
  rfl

theorem execute_right_run : ∀ (c k : Nat), k + c = 29999 →
    execute (c + 2) (rightState 29999 k) = Res.ok { rightState 29999 29999 with
      pc := 30000,
      dumps := [(dumpIndices 29999).map (fun i => (i, 0))] } := by
  intro c
  induction c with
  | zero =>
    intro k hk
    have hk' : k = 29999 := by omega
    subst hk'
    have hpc : (rightState 29999 29999).pc < (rightState 29999 29999).source.length := by
      show 29999 < (rightSrc 29999).length
      rw [rightSrc_length]
      omega
    have hb : (rightState 29999 29999).source.getD (rightState 29999 29999).pc 0 = 35 :=
      rightSrc_getD_last 29999
    have hstep := step_dump_on (rightState 29999 29999) hb rfl
    have e : ((rightState 29999 29999).pc + 1) % U64 = 30000 := by
      show (29999 + 1) % U64 = 30000
      unfold U64
      norm_num
    rw [e] at hstep
    rw [execute_enter 1 _ _ hpc hstep]
    rw [execute_done 0 _ (by show ¬ 30000 < (rightSrc 29999).length; rw [rightSrc_length]; omega)]
    rfl
  | succ c ih =>
    intro k hk
    have hlt : k < 29999 := by omega
    have hpc : (rightState 29999 k).pc < (rightState 29999 k).source.length := by
      show k < (rightSrc 29999).length
      rw [rightSrc_length]
      omega
    have hb : (rightState 29999 k).source.getD (rightState 29999 k).pc 0 = 62 :=
      rightSrc_getD_lt 29999 k hlt
    have hc : ¬ (rightState 29999 k).cellptr = CELL_COUNT - 1 := by
      show ¬ k = CELL_COUNT - 1
      unfold CELL_COUNT
      omega
    have hstep := step_right_ok (rightState 29999 k) hb hc
    have e : ((rightState 29999 k).pc + 1) % U64 = k + 1 := by
      show (k + 1) % U64 = k + 1
      unfold U64
      omega
    rw [e] at hstep
    rw [execute_enter (c + 2) _ _ hpc hstep]
    exact ih (k + 1) (by omega)

end Bfi
namespace Bfi

/-- C4 fails on the code: with diagnostics enabled, the source of 29999
move-right bytes followed by the dump byte runs to completion, reaching
tape pointer 29999 and performing one dump, and that dump reads the ten
indices from 29997 through 30006 — among them index 30006 (and six
others), which is not a valid tape index: the C code reads past the end
of the 30000-cell array. -/
theorem diagnostic_dump_oob :
    execute 30001 (rightState 29999 0) = Res.ok { rightState 29999 29999 with
      pc := 30000,
      dumps := [(dumpIndices 29999).map (fun i => (i, 0))] } ∧
    (CELL_COUNT + 6) ∈ dumpIndices 29999 ∧
    ¬ CELL_COUNT + 6 < CELL_COUNT := by
  refine ⟨?_, by decide, by decide⟩
  exact execute_right_run 29999 0 (by omega)

end Bfi
namespace Bfi

theorem getD_eq_getElem (src : List Nat) (k : Nat) (h : k < src.length) :
    src.getD k 0 = src[k] := by
  rw [List.getD_eq_getElem?_getD, List.getElem?_eq_getElem h]
  rfl

theorem count_take_succ (src : List Nat) (k a : Nat) (h : k < src.length) :
    (src.take (k + 1)).count a =
      (src.take k).count a + (if src.getD k 0 = a then 1 else 0) := by
  rw [← List.take_concat_get' src k h, List.count_append]
  congr 1
  rw [getD_eq_getElem src k h]
  by_cases hb : src[k] = a
  · rw [if_pos hb, hb, List.count_singleton_self]
  · rw [if_neg hb, List.count_singleton, if_neg (by simpa using hb)]

theorem lineAt_succ (src : List Nat) (k : Nat) (h : k < src.length) :
    lineAt src (k + 1) = lineAt src k + (if src.getD k 0 = 10 then 1 else 0) := by
  unfold lineAt
  rw [count_take_succ src k 10 h]
  omega

theorem dep_succ (src : List Nat) (k : Nat) (h : k < src.length) :
    dep src (k + 1) = dep src k +
      (if src.getD k 0 = 91 then 1 else if src.getD k 0 = 93 then (-1 : Int) else 0) := by
  unfold dep
  rw [count_take_succ src k 91 h, count_take_succ src k 93 h]
  by_cases h91 : src.getD k 0 = 91
  · rw [if_pos h91, if_pos h91, if_neg (by rw [h91]; decide)]
    push_cast
    ring
  · rw [if_neg h91, if_neg h91]
    by_cases h93 : src.getD k 0 = 93
    · rw [if_pos h93, if_pos h93]
      push_cast
      ring
    · rw [if_neg h93, if_neg h93]
      push_cast
      ring

theorem cdep_succ (src : List Nat) (k : Nat) :
    cdep src (k + 1) =
      if src.getD k 0 = 91 then cdep src k + 1
      else if src.getD k 0 = 93 then cdep src k - 1
      else cdep src k := rfl

theorem prepStep_inert (src : List Nat) (st : Prep) (i : Nat)
    (h91 : ¬ src.getD i 0 = 91) (h93 : ¬ src.getD i 0 = 93) :
    prepStep src st i = { st with
      lines := Function.update st.lines i st.line,
      line := st.line + (if src.getD i 0 = 10 then 1 else 0) } := by
  simp only [prepStep, if_neg h91, if_neg h93]

theorem prepStep_open (src : List Nat) (st : Prep) (i : Nat)
    (h : src.getD i 0 = 91) :
    prepStep src st i = { st with
      lines := Function.update st.lines i st.line,
      stack := i :: st.stack } := by
  simp only [prepStep]
  rw [h]
  norm_num

theorem prepStep_close_nil (src : List Nat) (st : Prep) (i : Nat)
    (h : src.getD i 0 = 93) (hs : st.stack = []) :
    prepStep src st i = { st with
      lines := Function.update st.lines i st.line,
      errors := st.errors ++ [PrepErr.unbalancedClose st.line],
      success := false } := by
  simp only [prepStep]
  rw [h, hs]
  norm_num

theorem prepStep_close_cons (src : List Nat) (st : Prep) (i p : Nat)
    (rest : List Nat) (h : src.getD i 0 = 93) (hs : st.stack = p :: rest) :
    prepStep src st i = { st with
      lines := Function.update st.lines i st.line,
      stack := rest,
      jumps := Function.update (Function.update st.jumps p i) i p } := by
  simp only [prepStep]
  rw [h, hs]
  norm_num

end Bfi
namespace Bfi

theorem StackC_mem (src : List Nat) (k : Nat) :
    ∀ (s : List Nat), StackC src k s → ∀ q ∈ s,
      q < k ∧ src.getD q 0 = 91 ∧ ∀ m, q < m → m ≤ k → cdep src q < cdep src m := by
  intro s
  induction s with
  | nil => intro _ q hq; cases hq
  | cons p rest ih =>
    intro hs q hq
    obtain ⟨h1, h2, _h3, h4, h5⟩ := hs
    rcases List.mem_cons.mp hq with rfl | hq
    · exact ⟨h1, h2, h4⟩
    · exact ih h5 q hq

theorem StackC_mem_lt (src : List Nat) (k : Nat) :
    ∀ (s : List Nat), StackC src k s → ∀ q ∈ s, cdep src q < s.length := by
  intro s
  induction s with
  | nil => intro _ q hq; cases hq
  | cons p rest ih =>
    intro hs q hq
    obtain ⟨_h1, _h2, h3, _h4, h5⟩ := hs
    rcases List.mem_cons.mp hq with rfl | hq
    · rw [h3]
      simp only [List.length_cons]
      omega
    · have := ih h5 q hq
      simp only [List.length_cons]
      omega

theorem StackC_extend (src : List Nat) (k : Nat) :
    ∀ (s : List Nat), StackC src k s →
      (∀ q ∈ s, cdep src q < cdep src (k + 1)) → StackC src (k + 1) s := by
  intro s
  induction s with
  | nil => intro _ _; trivial
  | cons p rest ih =>
    intro hs hq
    obtain ⟨h1, h2, h3, h4, h5⟩ := hs
    refine ⟨by omega, h2, h3, ?_, ih h5 (fun q hmem => hq q (List.mem_cons_of_mem p hmem))⟩
    intro m hm1 hm2
    rcases Nat.lt_succ_iff_lt_or_eq.mp (Nat.lt_succ_of_le hm2) with hm | rfl
    · exact h4 m hm1 (by omega)
    · exact hq p (List.mem_cons_self p rest)

end Bfi
namespace Bfi

theorem StackC_head_not_mem (src : List Nat) (k p : Nat) (rest : List Nat)
    (hs : StackC src k (p :: rest)) : p ∉ rest := by
  obtain ⟨_h1, _h2, h3, _h4, h5⟩ := hs
  intro hmem
  have := StackC_mem_lt src k rest h5 p hmem
  omega

theorem specClosesUpTo_succ_yes (src : List Nat) (k : Nat)
    (h : src.getD k 0 = 93 ∧ cdep src k = 0) :
    specClosesUpTo src (k + 1) = specClosesUpTo src k ++ [k] := by
  unfold specClosesUpTo
  have hd : decide (src.getD k 0 = 93 ∧ cdep src k = 0) = true := by simpa using h
  rw [List.range_succ, List.filter_append, List.filter_singleton, hd]
  rfl

theorem specClosesUpTo_succ_no (src : List Nat) (k : Nat)
    (h : ¬ (src.getD k 0 = 93 ∧ cdep src k = 0)) :
    specClosesUpTo src (k + 1) = specClosesUpTo src k := by
  unfold specClosesUpTo
  have hd : decide (src.getD k 0 = 93 ∧ cdep src k = 0) = false := by simpa using h
  rw [List.range_succ, List.filter_append, List.filter_singleton, hd]
  rw [show (bif false then [k] else []) = ([] : List Nat) from rfl, List.append_nil]

theorem inv_other (src : List Nat) (k : Nat) (st : Prep) (hk : k < src.length)
    (h91 : ¬ src.getD k 0 = 91) (h93 : ¬ src.getD k 0 = 93)
    (hinv : ScanInv src k st) : ScanInv src (k + 1) (prepStep src st k) := by
  obtain ⟨hline, hlines, hlen, hok, herr, hsucc, P, hP⟩ := hinv
  rw [prepStep_inert src st k h91 h93]
  have hcd : cdep src (k + 1) = cdep src k := by
    rw [cdep_succ, if_neg h91, if_neg h93]
  refine ⟨?_, ?_, ?_, ?_, ?_, ?_, ⟨P, ?_⟩⟩
  · show st.line + (if src.getD k 0 = 10 then 1 else 0) = lineAt src (k + 1)
    rw [lineAt_succ src k hk, hline]
  · show ∀ p, p < k + 1 → Function.update st.lines k st.line p = lineAt src p
    intro p hp
    by_cases hpk : p = k
    · subst hpk
      rw [Function.update_same, hline]
    · rw [Function.update_noteq hpk]
      exact hlines p (by omega)
  · show st.stack.length = cdep src (k + 1)
    rw [hcd]
    exact hlen
  · show StackC src (k + 1) st.stack
    refine StackC_extend src k st.stack hok ?_
    intro q hq
    obtain ⟨hqk, _, hqmin⟩ := StackC_mem src k st.stack hok q hq
    rw [hcd]
    exact hqmin k hqk (by omega)
  · show st.errors = (specClosesUpTo src (k + 1)).map
      (fun c => PrepErr.unbalancedClose (lineAt src c))
    rw [specClosesUpTo_succ_no src k (fun hc => h93 hc.1)]
    exact herr
  · exact hsucc
  · obtain ⟨hPm, hcov⟩ := hP
    refine ⟨?_, ?_⟩
    · intro pq hpq
      obtain ⟨h1, h2, h3, h4, h5, h6⟩ := hPm pq hpq
      exact ⟨h1, by omega, h3, h4, h5, h6⟩
    · intro i hi hbr
      by_cases hik : i = k
      · subst hik
        rcases hbr with hb | hb
        · exact absurd hb h91
        · exact absurd hb.1 h93
      · exact hcov i (by omega) hbr

end Bfi
namespace Bfi

theorem inv_open (src : List Nat) (k : Nat) (st : Prep) (hk : k < src.length)
    (hb : src.getD k 0 = 91) (hinv : ScanInv src k st) :
    ScanInv src (k + 1) (prepStep src st k) := by
  obtain ⟨hline, hlines, hlen, hok, herr, hsucc, P, hP⟩ := hinv
  rw [prepStep_open src st k hb]
  have h93 : ¬ src.getD k 0 = 93 := by rw [hb]; decide
  have h10 : ¬ src.getD k 0 = 10 := by rw [hb]; decide
  have hcd : cdep src (k + 1) = cdep src k + 1 := by
    rw [cdep_succ, if_pos hb]
  refine ⟨?_, ?_, ?_, ?_, ?_, ?_, ⟨P, ?_⟩⟩
  · show st.line = lineAt src (k + 1)
    rw [lineAt_succ src k hk, if_neg h10, hline, Nat.add_zero]
  · show ∀ p, p < k + 1 → Function.update st.lines k st.line p = lineAt src p
    intro p hp
    by_cases hpk : p = k
    · subst hpk
      rw [Function.update_same, hline]
    · rw [Function.update_noteq hpk]
      exact hlines p (by omega)
  · show (k :: st.stack).length = cdep src (k + 1)
    rw [List.length_cons, hcd, hlen]
  · show StackC src (k + 1) (k :: st.stack)
    refine ⟨by omega, hb, by rw [hlen], ?_, ?_⟩
    · intro m hm1 hm2
      have hm : m = k + 1 := by omega
      subst hm
      omega
    · refine StackC_extend src k st.stack hok ?_
      intro q hq
      obtain ⟨hqk, _, hqmin⟩ := StackC_mem src k st.stack hok q hq
      have := hqmin k hqk (by omega)
      omega
  · show st.errors = (specClosesUpTo src (k + 1)).map
      (fun c => PrepErr.unbalancedClose (lineAt src c))
    rw [specClosesUpTo_succ_no src k (fun hc => h93 hc.1)]
    exact herr
  · exact hsucc
  · obtain ⟨hPm, hcov⟩ := hP
    refine ⟨?_, ?_⟩
    · intro pq hpq
      obtain ⟨h1, h2, h3, h4, h5, h6⟩ := hPm pq hpq
      have hp1k : pq.1 ≠ k := by
        obtain ⟨hlt, _⟩ := h1
        omega
      have hp2k : pq.2 ≠ k := by omega
      refine ⟨h1, by omega, h3, h4, ?_, ?_⟩
      · intro hmem
        rcases List.mem_cons.mp hmem with he | hmem'
        · exact hp1k he
        · exact h5 hmem'
      · intro hmem
        rcases List.mem_cons.mp hmem with he | hmem'
        · exact hp2k he
        · exact h6 hmem'
    · intro i hi hbr
      by_cases hik : i = k
      · subst hik
        exact Or.inl (List.mem_cons_self i st.stack)
      · rcases hcov i (by omega) hbr with hmem | hex
        · exact Or.inl (List.mem_cons_of_mem k hmem)
        · exact Or.inr hex

end Bfi
namespace Bfi

theorem inv_close_nil (src : List Nat) (k : Nat) (st : Prep) (hk : k < src.length)
    (hb : src.getD k 0 = 93) (hs : st.stack = []) (hinv : ScanInv src k st) :
    ScanInv src (k + 1) (prepStep src st k) := by
  obtain ⟨hline, hlines, hlen, hok, herr, hsucc, P, hP⟩ := hinv
  rw [prepStep_close_nil src st k hb hs]
  have h91 : ¬ src.getD k 0 = 91 := by rw [hb]; decide
  have h10 : ¬ src.getD k 0 = 10 := by rw [hb]; decide
  have hcd0 : cdep src k = 0 := by
    rw [hs] at hlen
    simpa using hlen.symm
  have hcd : cdep src (k + 1) = 0 := by
    rw [cdep_succ, if_neg h91, if_pos hb, hcd0]
  refine ⟨?_, ?_, ?_, ?_, ?_, ?_, ⟨P, ?_⟩⟩
  · show st.line = lineAt src (k + 1)
    rw [lineAt_succ src k hk, if_neg h10, hline, Nat.add_zero]
  · show ∀ p, p < k + 1 → Function.update st.lines k st.line p = lineAt src p
    intro p hp
    by_cases hpk : p = k
    · subst hpk
      rw [Function.update_same, hline]
    · rw [Function.update_noteq hpk]
      exact hlines p (by omega)
  · show st.stack.length = cdep src (k + 1)
    rw [hs, hcd]
    rfl
  · show StackC src (k + 1) st.stack
    rw [hs]
    trivial
  · show st.errors ++ [PrepErr.unbalancedClose st.line] =
      (specClosesUpTo src (k + 1)).map (fun c => PrepErr.unbalancedClose (lineAt src c))
    rw [specClosesUpTo_succ_yes src k ⟨hb, hcd0⟩, List.map_append, herr, hline]
    rfl
  · show false = decide (st.errors ++ [PrepErr.unbalancedClose st.line] = [])
    have : st.errors ++ [PrepErr.unbalancedClose st.line] ≠ [] := by
      simp
    simp [this]
  · obtain ⟨hPm, hcov⟩ := hP
    refine ⟨?_, ?_⟩
    · intro pq hpq
      obtain ⟨h1, h2, h3, h4, h5, h6⟩ := hPm pq hpq
      exact ⟨h1, by omega, h3, h4, h5, h6⟩
    · intro i hi hbr
      by_cases hik : i = k
      · subst hik
        rcases hbr with hbr | hbr
        · exact absurd hbr h91
        · exact absurd hcd0 hbr.2
      · exact hcov i (by omega) hbr

end Bfi
namespace Bfi

theorem inv_close_cons (src : List Nat) (k : Nat) (st : Prep) (p : Nat)
    (rest : List Nat) (hk : k < src.length) (hb : src.getD k 0 = 93)
    (hs : st.stack = p :: rest) (hinv : ScanInv src k st) :
    ScanInv src (k + 1) (prepStep src st k) := by
  obtain ⟨hline, hlines, hlen, hok, herr, hsucc, P, hP⟩ := hinv
  rw [prepStep_close_cons src st k p rest hb hs]
  have h91 : ¬ src.getD k 0 = 91 := by rw [hb]; decide
  have h10 : ¬ src.getD k 0 = 10 := by rw [hb]; decide
  rw [hs] at hok
  obtain ⟨hpk, hp91, hpdep, hpmin, hrest⟩ := hok
  have hcdk : cdep src k = rest.length + 1 := by
    rw [hs] at hlen
    simpa using hlen.symm
  have hcd : cdep src (k + 1) = rest.length := by
    rw [cdep_succ, if_neg h91, if_pos hb, hcdk]
    omega
  have hknotrest : ∀ q ∈ rest, q < k :=
    fun q hq => (StackC_mem src k rest hrest q hq).1
  refine ⟨?_, ?_, ?_, ?_, ?_, ?_, ⟨(p, k) :: P, ?_⟩⟩
  · show st.line = lineAt src (k + 1)
    rw [lineAt_succ src k hk, if_neg h10, hline, Nat.add_zero]
  · show ∀ q, q < k + 1 → Function.update st.lines k st.line q = lineAt src q
    intro q hq
    by_cases hqk : q = k
    · subst hqk
      rw [Function.update_same, hline]
    · rw [Function.update_noteq hqk]
      exact hlines q (by omega)
  · show rest.length = cdep src (k + 1)
    rw [hcd]
  · show StackC src (k + 1) rest
    refine StackC_extend src k rest hrest ?_
    intro q hq
    have := StackC_mem_lt src k rest hrest q hq
    omega
  · show st.errors = (specClosesUpTo src (k + 1)).map
      (fun c => PrepErr.unbalancedClose (lineAt src c))
    rw [specClosesUpTo_succ_no src k (fun hc => by omega)]
    exact herr
  · exact hsucc
  · obtain ⟨hPm, hcov⟩ := hP
    have hPlt : ∀ pq ∈ P, pq.1 < k ∧ pq.2 < k := by
      intro pq hpq
      obtain ⟨h1, h2, _⟩ := hPm pq hpq
      obtain ⟨hlt, _⟩ := h1
      exact ⟨by omega, h2⟩
    have hPnotp : ∀ pq ∈ P, pq.1 ≠ p ∧ pq.2 ≠ p := by
      intro pq hpq
      obtain ⟨_, _, _, _, h5, h6⟩ := hPm pq hpq
      rw [hs] at h5 h6
      exact ⟨fun he => h5 (he ▸ List.mem_cons_self p rest),
        fun he => h6 (he ▸ List.mem_cons_self p rest)⟩
    refine ⟨?_, ?_⟩
    · intro pq hpq
      rcases List.mem_cons.mp hpq with rfl | hpq'
      · -- the new pair (p, k)
        refine ⟨⟨hpk, hp91, hb, by rw [hcd, hpdep], hpmin⟩, by omega, ?_, ?_, ?_, ?_⟩
        · show Function.update (Function.update st.jumps p k) k p p = k
          rw [Function.update_noteq (by omega), Function.update_same]
        · show Function.update (Function.update st.jumps p k) k p k = p
          rw [Function.update_same]
        · exact StackC_head_not_mem src k p rest ⟨hpk, hp91, hpdep, hpmin, hrest⟩
        · intro hmem
          exact absurd (hknotrest k hmem) (by omega)
      · obtain ⟨h1, h2, h3, h4, h5, h6⟩ := hPm pq hpq'
        obtain ⟨hq1k, hq2k⟩ := hPlt pq hpq'
        obtain ⟨hq1p, hq2p⟩ := hPnotp pq hpq'
        refine ⟨h1, by omega, ?_, ?_, ?_, ?_⟩
        · show Function.update (Function.update st.jumps p k) k p pq.1 = pq.2
          rw [Function.update_noteq (by omega), Function.update_noteq hq1p]
          exact h3
        · show Function.update (Function.update st.jumps p k) k p pq.2 = pq.1
          rw [Function.update_noteq (by omega), Function.update_noteq hq2p]
          exact h4
        · intro hmem
          exact h5 (by rw [hs]; exact List.mem_cons_of_mem p hmem)
        · intro hmem
          exact h6 (by rw [hs]; exact List.mem_cons_of_mem p hmem)
    · intro i hi hbr
      by_cases hik : i = k
      · subst hik
        exact Or.inr ⟨(p, i), List.mem_cons_self _ _, Or.inr rfl⟩
      · rcases hcov i (by omega) hbr with hmem | ⟨pq, hpq, hor⟩
        · rw [hs] at hmem
          rcases List.mem_cons.mp hmem with rfl | hmem'
          · exact Or.inr ⟨(i, k), List.mem_cons_self _ _, Or.inl rfl⟩
          · exact Or.inl hmem'
        · exact Or.inr ⟨pq, List.mem_cons_of_mem _ hpq, hor⟩

end Bfi
namespace Bfi

theorem prepStep_inv (src : List Nat) (k : Nat) (st : Prep)
    (hk : k < src.length) (hinv : ScanInv src k st) :
    ScanInv src (k + 1) (prepStep src st k) := by
  by_cases h91 : src.getD k 0 = 91
  · exact inv_open src k st hk h91 hinv
  by_cases h93 : src.getD k 0 = 93
  · cases hs : st.stack with
    | nil => exact inv_close_nil src k st hk h93 hs hinv
    | cons p rest => exact inv_close_cons src k st p rest hk h93 hs hinv
  · exact inv_other src k st hk h91 h93 hinv

theorem scanFrom_inv (src : List Nat) :
    ∀ (c k : Nat) (st : Prep), k + c ≤ src.length → ScanInv src k st →
      ScanInv src (k + c) (scanFrom src c k st) := by
  intro c
  induction c with
  | zero => intro k st _ hinv; exact hinv
  | succ c ih =>
    intro k st hkc hinv
    show ScanInv src (k + (c + 1)) (scanFrom src c (k + 1) (prepStep src st k))
    have := ih (k + 1) (prepStep src st k) (by omega)
      (prepStep_inv src k st (by omega) hinv)
    have e : k + 1 + c = k + (c + 1) := by omega
    rw [e] at this
    exact this

theorem scanInv_init (src : List Nat) : ScanInv src 0 prepInit := by
  refine ⟨rfl, ?_, rfl, trivial, rfl, rfl, ⟨[], ?_, ?_⟩⟩
  · intro p hp
    omega
  · intro pq hpq
    cases hpq
  · intro i hi
    omega

theorem scan_result_inv (src : List Nat) :
    ScanInv src src.length (scanFrom src src.length 0 prepInit) := by
  have := scanFrom_inv src src.length 0 prepInit (by omega) (scanInv_init src)
  simpa using this

theorem finalizeOpens_foldl (l : List Nat) :
    ∀ (t : Prep),
      (l.foldl (fun t p =>
        { t with errors := t.errors ++ [PrepErr.unbalancedOpen (t.lines p)],
                 success := false }) t) =
      { t with errors := t.errors ++ l.map (fun p => PrepErr.unbalancedOpen (t.lines p)),
               success := t.success && l.isEmpty } := by
  induction l with
  | nil =>
    intro t
    show t = { t with errors := t.errors ++ [], success := t.success && true }
    rw [List.append_nil, Bool.and_true]
  | cons p l ih =>
    intro t
    rw [List.foldl_cons, ih]
    dsimp only
    rw [List.append_assoc]
    rw [show (p :: l).isEmpty = false from rfl]
    rw [Bool.false_and, Bool.and_false]
    rfl

end Bfi
namespace Bfi

theorem prepare_parts (src : List Nat) :
    prepare src =
      { (scanFrom src src.length 0 prepInit) with
        errors := (scanFrom src src.length 0 prepInit).errors ++
          (scanFrom src src.length 0 prepInit).stack.reverse.map
            (fun p => PrepErr.unbalancedOpen ((scanFrom src src.length 0 prepInit).lines p)),
        success := (scanFrom src src.length 0 prepInit).success &&
          (scanFrom src src.length 0 prepInit).stack.reverse.isEmpty } := by
  unfold prepare finalizeOpens
  rw [finalizeOpens_foldl]

theorem dep_zero (src : List Nat) : dep src 0 = 0 := by
  unfold dep
  rfl

theorem cdep_eq_dep (src : List Nat)
    (hbal : ∀ k, k ≤ src.length → 0 ≤ dep src k) :
    ∀ k, k ≤ src.length → (cdep src k : Int) = dep src k := by
  intro k
  induction k with
  | zero =>
    intro _
    rw [dep_zero]
    rfl
  | succ k ih =>
    intro hk
    have hk' : k < src.length := by omega
    have ihk := ih (by omega)
    rw [dep_succ src k hk', cdep_succ]
    by_cases h91 : src.getD k 0 = 91
    · rw [if_pos h91, if_pos h91]
      omega
    · rw [if_neg h91, if_neg h91]
      by_cases h93 : src.getD k 0 = 93
      · rw [if_pos h93, if_pos h93]
        have hge : 0 ≤ dep src (k + 1) := hbal (k + 1) hk
        rw [dep_succ src k hk', if_neg h91, if_pos h93] at hge
        omega
      · rw [if_neg h93, if_neg h93]
        omega

theorem balanced_no_unmatched_closes (src : List Nat) (hbal : Balanced src) :
    specClosesUpTo src src.length = [] := by
  rw [specClosesUpTo, List.filter_eq_nil_iff]
  intro c hc
  have hcn : c < src.length := List.mem_range.mp hc
  intro hpred
  rw [decide_eq_true_eq] at hpred
  obtain ⟨h93, hc0⟩ := hpred
  have h91 : ¬ src.getD c 0 = 91 := by rw [h93]; decide
  have hge : 0 ≤ dep src (c + 1) := hbal.1 (c + 1) (by omega)
  rw [dep_succ src c hcn, if_neg h91, if_pos h93] at hge
  have he := cdep_eq_dep src hbal.1 c (by omega)
  rw [hc0] at he
  omega

theorem balanced_scan_stack_nil (src : List Nat) (hbal : Balanced src) :
    (scanFrom src src.length 0 prepInit).stack = [] := by
  have hinv := scan_result_inv src
  have hlen := hinv.stack_len
  have he := cdep_eq_dep src hbal.1 src.length (by omega)
  rw [hbal.2] at he
  have hc0 : cdep src src.length = 0 := by exact_mod_cast he
  rw [hc0] at hlen
  exact List.length_eq_zero.mp hlen

end Bfi
namespace Bfi

theorem balanced_close_cdep_ne (src : List Nat) (hbal : Balanced src) (i : Nat)
    (hi : i < src.length) (h93 : src.getD i 0 = 93) : cdep src i ≠ 0 := by
  intro h0
  have h91 : ¬ src.getD i 0 = 91 := by rw [h93]; decide
  have hge := hbal.1 (i + 1) (by omega)
  rw [dep_succ src i hi, if_neg h91, if_pos h93] at hge
  have he := cdep_eq_dep src hbal.1 i (by omega)
  rw [h0] at he
  omega

theorem partnerC_to_partner (src : List Nat) (hbal : Balanced src) (i j : Nat)
    (hj : j < src.length) (h : PartnerC src i j) : Partner src i j := by
  obtain ⟨hij, hi91, hj93, heq, hmin⟩ := h
  refine ⟨hij, hi91, hj93, ?_, ?_⟩
  · have e1 := cdep_eq_dep src hbal.1 (j + 1) (by omega)
    have e2 := cdep_eq_dep src hbal.1 i (by omega)
    rw [← e1, ← e2, heq]
  · intro m hm1 hm2
    have hlt := hmin m hm1 hm2
    have e1 := cdep_eq_dep src hbal.1 i (by omega)
    have e2 := cdep_eq_dep src hbal.1 m (by omega)
    rw [← e1, ← e2]
    exact_mod_cast hlt

/-- C2: on every balanced source buffer (equally many loop-opens and
loop-closes, correctly nested) the preprocessor succeeds, and the jump
table it builds is an involution on the bracket offsets, sending every
bracket to its structural partner: the table applied twice at a bracket
offset is the identity, every loop-open is sent to the loop-close that
structurally matches it, and every loop-close to its matching open. -/
theorem jump_table_involution (src : List Nat) (hbal : Balanced src) :
    (prepare src).success = true ∧
    ∀ i, i < src.length → src.getD i 0 = 91 ∨ src.getD i 0 = 93 →
      (prepare src).jumps ((prepare src).jumps i) = i ∧
      (src.getD i 0 = 91 → Partner src i ((prepare src).jumps i)) ∧
      (src.getD i 0 = 93 → Partner src ((prepare src).jumps i) i) := by
  have hinv := scan_result_inv src
  have hstk := balanced_scan_stack_nil src hbal
  have herr : (scanFrom src src.length 0 prepInit).errors = [] := by
    rw [hinv.errors_eq, balanced_no_unmatched_closes src hbal]
    rfl
  have hjumps : (prepare src).jumps = (scanFrom src src.length 0 prepInit).jumps := by
    rw [prepare_parts src]
  have hsucc : (prepare src).success = true := by
    rw [prepare_parts src]
    dsimp only
    rw [hstk, hinv.success_eq, herr]
    rfl
  refine ⟨hsucc, ?_⟩
  intro i hi hbr
  obtain ⟨P, hPm, hcov⟩ := hinv.pairs
  have hbr' : src.getD i 0 = 91 ∨ (src.getD i 0 = 93 ∧ cdep src i ≠ 0) := by
    rcases hbr with h | h
    · exact Or.inl h
    · exact Or.inr ⟨h, balanced_close_cdep_ne src hbal i hi h⟩
  rcases hcov i hi hbr' with hmem | ⟨pq, hpq, hor⟩
  · rw [hstk] at hmem
    cases hmem
  · obtain ⟨hPc, hq2, hj1, hj2, _, _⟩ := hPm pq hpq
    rcases hor with rfl | rfl
    · refine ⟨by rw [hjumps, hj1, hj2], fun _ => ?_, fun h93 => ?_⟩
      · rw [hjumps, hj1]
        exact partnerC_to_partner src hbal pq.1 pq.2 hq2 hPc
      · exact absurd h93 (by rw [hPc.2.1]; decide)
    · refine ⟨by rw [hjumps, hj2, hj1], fun h91 => ?_, fun _ => ?_⟩
      · exact absurd h91 (by rw [hPc.2.2.1]; decide)
      · rw [hjumps, hj2]
        exact partnerC_to_partner src hbal pq.1 pq.2 hq2 hPc

theorem jump_table_involution_witness :
    Balanced [91, 91, 93, 93] ∧
    (prepare [91, 91, 93, 93]).success = true ∧
    (prepare [91, 91, 93, 93]).jumps ((prepare [91, 91, 93, 93]).jumps 0) = 0 ∧
    Partner [91, 91, 93, 93] 1 ((prepare [91, 91, 93, 93]).jumps 1) :=
  ⟨by decide,
    (jump_table_involution [91, 91, 93, 93] (by decide)).1,
    ((jump_table_involution [91, 91, 93, 93] (by decide)).2 0 (by decide) (by decide)).1,
    ((jump_table_involution [91, 91, 93, 93] (by decide)).2 1 (by decide) (by decide)).2.1 (by decide)⟩

end Bfi
namespace Bfi

theorem StackC_pairwise_gt (src : List Nat) (k : Nat) :
    ∀ s, StackC src k s → List.Pairwise (fun a b => a > b) s := by
  intro s
  induction s with
  | nil => intro _; exact List.Pairwise.nil
  | cons p rest ih =>
    intro hs
    obtain ⟨h1, h2, h3, h4, h5⟩ := hs
    refine List.Pairwise.cons ?_ (ih h5)
    intro q hq
    obtain ⟨hqk, _, _⟩ := StackC_mem src k rest h5 q hq
    have hql := StackC_mem_lt src k rest h5 q hq
    by_contra hle
    have hqp : p < q ∨ p = q := by omega
    rcases hqp with hlt | rfl
    · have := h4 q hlt (by omega)
      omega
    · omega

theorem sorted_lt_mem_ext :
    ∀ (l₁ l₂ : List Nat), List.Pairwise (· < ·) l₁ → List.Pairwise (· < ·) l₂ →
      (∀ x, x ∈ l₁ ↔ x ∈ l₂) → l₁ = l₂ := by
  intro l₁
  induction l₁ with
  | nil =>
    intro l₂ _ _ hx
    cases l₂ with
    | nil => rfl
    | cons b t₂ =>
      exact absurd ((hx b).mpr (List.mem_cons_self b t₂)) (List.not_mem_nil b)
  | cons a t₁ ih =>
    intro l₂ h₁ h₂ hx
    cases l₂ with
    | nil =>
      exact absurd ((hx a).mp (List.mem_cons_self a t₁)) (List.not_mem_nil a)
    | cons b t₂ =>
      obtain ⟨ha1, ht1⟩ := List.pairwise_cons.mp h₁
      obtain ⟨hb2, ht2⟩ := List.pairwise_cons.mp h₂
      have hab : a = b := by
        rcases List.mem_cons.mp ((hx a).mp (List.mem_cons_self a t₁)) with he | hat2
        · exact he
        rcases List.mem_cons.mp ((hx b).mpr (List.mem_cons_self b t₂)) with he | hbt1
        · exact he.symm
        have := ha1 b hbt1
        have := hb2 a hat2
        omega
      subst hab
      have hnext : ∀ x, x ∈ t₁ ↔ x ∈ t₂ := by
        intro x
        constructor
        · intro hxt
          have hlt := ha1 x hxt
          rcases List.mem_cons.mp ((hx x).mp (List.mem_cons_of_mem a hxt)) with he | h
          · omega
          · exact h
        · intro hxt
          have hlt := hb2 x hxt
          rcases List.mem_cons.mp ((hx x).mpr (List.mem_cons_of_mem a hxt)) with he | h
          · omega
          · exact h
      rw [ih t₂ ht1 ht2 hnext]

theorem specOpens_mem (src : List Nat) (q : Nat) :
    q ∈ specOpens src ↔
      q < src.length ∧ src.getD q 0 = 91 ∧
        ∀ m, q < m → m ≤ src.length → cdep src q < cdep src m := by
  unfold specOpens
  rw [List.mem_filter, List.mem_range]
  constructor
  · rintro ⟨hq, hpred⟩
    rw [Bool.and_eq_true, decide_eq_true_eq, List.all_eq_true] at hpred
    obtain ⟨h91, hall⟩ := hpred
    refine ⟨hq, h91, ?_⟩
    intro m hm1 hm2
    have := hall m (List.mem_range.mpr (by omega))
    rw [decide_eq_true_eq] at this
    exact this hm1
  · rintro ⟨hq, h91, hall⟩
    refine ⟨hq, ?_⟩
    rw [Bool.and_eq_true, decide_eq_true_eq, List.all_eq_true]
    refine ⟨h91, ?_⟩
    intro m hm
    rw [decide_eq_true_eq]
    intro hm1
    exact hall m hm1 (by have := List.mem_range.mp hm; omega)

theorem scan_stack_mem (src : List Nat) (q : Nat) :
    q ∈ (scanFrom src src.length 0 prepInit).stack ↔
      q < src.length ∧ src.getD q 0 = 91 ∧
        ∀ m, q < m → m ≤ src.length → cdep src q < cdep src m := by
  have hinv := scan_result_inv src
  constructor
  · intro hq
    exact StackC_mem src src.length _ hinv.stack_ok q hq
  · rintro ⟨hq, h91, hall⟩
    obtain ⟨P, hPm, hcov⟩ := hinv.pairs
    rcases hcov q hq (Or.inl h91) with hmem | ⟨pq, hpq, hor⟩
    · exact hmem
    · obtain ⟨hPc, hq2, _, _, _, _⟩ := hPm pq hpq
      rcases hor with rfl | rfl
      · obtain ⟨hij, _, _, heq, _⟩ := hPc
        have := hall (pq.2 + 1) (by omega) (by omega)
        omega
      · exact absurd h91 (by rw [hPc.2.2.1]; decide)

theorem scan_stack_reverse_eq_specOpens (src : List Nat) :
    (scanFrom src src.length 0 prepInit).stack.reverse = specOpens src := by
  have hinv := scan_result_inv src
  refine sorted_lt_mem_ext _ _ ?_ ?_ ?_
  · rw [List.pairwise_reverse]
    exact StackC_pairwise_gt src src.length _ hinv.stack_ok
  · exact List.Pairwise.sublist (List.filter_sublist _) (List.sorted_lt_range src.length)
  · intro x
    rw [List.mem_reverse, scan_stack_mem, specOpens_mem]

end Bfi
namespace Bfi

theorem prepare_lines (src : List Nat) (p : Nat) (hp : p < src.length) :
    (prepare src).lines p = lineAt src p := by
  rw [prepare_parts]
  exact (scan_result_inv src).lines_eq p hp

theorem prepare_errors (src : List Nat) :
    (prepare src).errors =
      (specCloses src).map (fun c => PrepErr.unbalancedClose (lineAt src c)) ++
        (specOpens src).map (fun p => PrepErr.unbalancedOpen (lineAt src p)) := by
  have hinv := scan_result_inv src
  rw [prepare_parts src]
  dsimp only
  rw [hinv.errors_eq, scan_stack_reverse_eq_specOpens src]
  congr 1
  refine List.map_congr_left ?_
  intro p hp
  obtain ⟨hpn, _, _⟩ := (specOpens_mem src p).mp hp
  rw [hinv.lines_eq p hpn]

theorem prepare_success_decide (src : List Nat) :
    (prepare src).success = decide ((prepare src).errors = []) := by
  have hinv := scan_result_inv src
  rw [prepare_parts src]
  dsimp only
  rw [hinv.success_eq]
  by_cases he : (scanFrom src src.length 0 prepInit).errors = []
  · by_cases hs : (scanFrom src src.length 0 prepInit).stack = []
    · rw [he, hs]
      rfl
    · rw [he]
      have h1 : (scanFrom src src.length 0 prepInit).stack.reverse.isEmpty = false := by
        rw [Bool.eq_false_iff]
        intro hcon
        exact hs (List.reverse_eq_nil_iff.mp (List.isEmpty_iff.mp hcon))
      rw [h1, Bool.and_false]
      have h2 : ([] : List PrepErr) ++
          (scanFrom src src.length 0 prepInit).stack.reverse.map
            (fun p => PrepErr.unbalancedOpen ((scanFrom src src.length 0 prepInit).lines p)) ≠ [] := by
        rw [List.nil_append]
        intro hcon
        exact hs (List.reverse_eq_nil_iff.mp (List.map_eq_nil_iff.mp hcon))
      rw [decide_eq_false h2]
  · have h1 : decide ((scanFrom src src.length 0 prepInit).errors = []) = false :=
      decide_eq_false he
    rw [h1, Bool.false_and]
    have h2 : (scanFrom src src.length 0 prepInit).errors ++
        (scanFrom src src.length 0 prepInit).stack.reverse.map
          (fun p => PrepErr.unbalancedOpen ((scanFrom src src.length 0 prepInit).lines p)) ≠ [] := by
      intro hcon
      exact he (List.append_eq_nil.mp hcon).1
    rw [decide_eq_false h2]

theorem no_close_errors_prefix_nonneg (src : List Nat)
    (hc : ∀ c, c < src.length → src.getD c 0 = 93 → cdep src c ≠ 0) :
    ∀ k, k ≤ src.length → (cdep src k : Int) = dep src k ∧ 0 ≤ dep src k := by
  intro k
  induction k with
  | zero =>
    intro _
    rw [dep_zero]
    exact ⟨rfl, le_refl 0⟩
  | succ k ih =>
    intro hk
    have hk' : k < src.length := by omega
    obtain ⟨ih1, ih2⟩ := ih (by omega)
    rw [dep_succ src k hk', cdep_succ]
    by_cases h91 : src.getD k 0 = 91
    · rw [if_pos h91, if_pos h91]
      constructor
      · omega
      · omega
    · rw [if_neg h91, if_neg h91]
      by_cases h93 : src.getD k 0 = 93
      · rw [if_pos h93, if_pos h93]
        have hne := hc k hk' h93
        constructor
        · omega
        · omega
      · rw [if_neg h93, if_neg h93]
        constructor
        · omega
        · omega

theorem success_implies_balanced (src : List Nat)
    (h : (prepare src).success = true) : Balanced src := by
  have hdec := prepare_success_decide src
  rw [h] at hdec
  have herr : (prepare src).errors = [] := of_decide_eq_true hdec.symm
  rw [prepare_errors src] at herr
  obtain ⟨hcl, hop⟩ := List.append_eq_nil.mp herr
  have hcl' : specCloses src = [] := List.map_eq_nil_iff.mp hcl
  have hop' : specOpens src = [] := List.map_eq_nil_iff.mp hop
  have hc : ∀ c, c < src.length → src.getD c 0 = 93 → cdep src c ≠ 0 := by
    intro c hcn h93 h0
    have := List.filter_eq_nil_iff.mp hcl' c (List.mem_range.mpr hcn)
    rw [decide_eq_true_eq] at this
    · exact this ⟨h93, h0⟩
  have hmain := no_close_errors_prefix_nonneg src hc
  have hstack : (scanFrom src src.length 0 prepInit).stack = [] := by
    rw [← List.reverse_eq_nil_iff, scan_stack_reverse_eq_specOpens src]
    exact hop'
  have hlen := (scan_result_inv src).stack_len
  rw [hstack] at hlen
  have hcd0 : cdep src src.length = 0 := by simpa using hlen.symm
  refine ⟨fun k hk => (hmain k hk).2, ?_⟩
  have := (hmain src.length (by omega)).1
  rw [hcd0] at this
  exact this.symm

end Bfi
namespace Bfi

/-- C5: for every source buffer, the preprocessor reports exactly the
unmatched loop-closes, in scan order, each citing the line number of
the close itself, followed by one report per loop-open left on the
stack, each citing that offset's own recorded line number, in the order
the offsets were pushed (that order being increasing offset order, as
the second conjunct states); the overall result is failure exactly when
a violation was reported, and in particular every structurally invalid
buffer yields failure. -/
theorem preprocessor_error_reporting (src : List Nat) :
    (prepare src).errors =
      (specCloses src).map (fun c => PrepErr.unbalancedClose (lineAt src c)) ++
        (specOpens src).map (fun p => PrepErr.unbalancedOpen (lineAt src p)) ∧
    List.Pairwise (· < ·) (specOpens src) ∧
    ((prepare src).success = false ↔ (prepare src).errors ≠ []) ∧
    (¬ Balanced src → (prepare src).success = false) := by
  refine ⟨prepare_errors src, ?_, ?_, ?_⟩
  · exact List.Pairwise.sublist (List.filter_sublist _) (List.sorted_lt_range src.length)
  · rw [prepare_success_decide src]
    constructor
    · intro h hcon
      rw [hcon] at h
      exact absurd h (by decide)
    · intro hne
      exact decide_eq_false hne
  · intro hnb
    by_contra hne
    have hT : (prepare src).success = true := by
      revert hne
      cases (prepare src).success
      · intro hne
        exact absurd rfl hne
      · intro _
        rfl
    exact hnb (success_implies_balanced src hT)

theorem preprocessor_error_reporting_witness :
    (prepare [93, 10, 91]).errors =
      (specCloses [93, 10, 91]).map
        (fun c => PrepErr.unbalancedClose (lineAt [93, 10, 91] c)) ++
        (specOpens [93, 10, 91]).map
          (fun p => PrepErr.unbalancedOpen (lineAt [93, 10, 91] p)) ∧
    (prepare [93, 10, 91]).success = false :=
  ⟨(preprocessor_error_reporting [93, 10, 91]).1,
    (preprocessor_error_reporting [93, 10, 91]).2.2.2 (by decide)⟩

/-- C3: when the byte at the program counter is a move-right with the
tape pointer at the last valid index, or a move-left with the tape
pointer at index 0, the run aborts at once: it returns the fatal result
citing the line number recorded for that byte, with the state unchanged,
so no later instruction executes and no further output is produced; and
the line map built by the preprocessor indeed assigns every byte its
1-based source line. -/
theorem bounds_violation_halts :
    (∀ (fuel : Nat) (s : EState), s.pc < s.source.length →
      (s.source.getD s.pc 0 = 62 ∧ s.cellptr = CELL_COUNT - 1) ∨
        (s.source.getD s.pc 0 = 60 ∧ s.cellptr = 0) →
      execute (fuel + 1) s = Res.fatal (s.lines s.pc) s) ∧
    (∀ (src : List Nat) (p : Nat), p < src.length →
      (prepare src).lines p = lineAt src p) := by
  constructor
  · intro fuel s hpc hv
    rcases hv with ⟨hb, hc⟩ | ⟨hb, hc⟩
    · exact execute_fatalstep fuel s _ hpc (step_right_fatal s hb hc)
    · exact execute_fatalstep fuel s _ hpc (step_left_fatal s hb hc)
  · exact prepare_lines

theorem bounds_violation_halts_witness :
    execute 1 wBoundsState = Res.fatal 7 wBoundsState ∧
    (prepare [93]).lines 0 = 1 :=
  ⟨bounds_violation_halts.1 0 wBoundsState (by decide) (Or.inl ⟨by decide, rfl⟩),
    bounds_violation_halts.2 [93] 0 (by decide)⟩

end Bfi
